import Mathlib

set_option maxHeartbeats 1000000

namespace NodeWreq

/-- Cache capacity, `CLIENT_CACHE_LIMIT` in client.rs. -/
def CLIENT_CACHE_LIMIT : Nat := 1024

/-- Timeout bucket width in milliseconds, `TIMEOUT_BUCKET_MS` in client.rs. -/
def TIMEOUT_BUCKET_MS : Nat := 5000

/-- Modulus of 64-bit unsigned wrapping arithmetic (2 to the 64th power):
`timeout` is a Rust `u64`. -/
def U64MOD : Nat := 18446744073709551616

/-- Cache key, `ClientKey` in client.rs: emulation label, optional proxy url,
bucketed timeout.  Equality is over all three fields (derived, as in Rust). -/
structure ClientKey where
  emulation : String
  proxy : Option String
  timeout_bucket : Nat
deriving DecidableEq

/-- State of `ClientCache`: the `DashMap` of clients is modelled as an
association list with unique keys, the `VecDeque` recency queue as a list whose
head is the front (least recently touched).  `H` abstracts `Arc<HttpClient>`. -/
structure ClientCache (H : Type) where
  clients : List (ClientKey × H)
  order : List ClientKey

/-- The initial empty cache, `ClientCache::new`. -/
def ClientCache.empty (H : Type) : ClientCache H := ⟨[], []⟩

/-- Lookup in the client map, modelling `DashMap::get`. -/
def mapGet {H : Type} : List (ClientKey × H) → ClientKey → Option H
  | [], _ => none
  | (k, v) :: rest, key => if k = key then some v else mapGet rest key

/-- Removal from the client map, modelling `DashMap::remove`. -/
def mapRemove {H : Type} : List (ClientKey × H) → ClientKey → List (ClientKey × H)
  | [], _ => []
  | (k, v) :: rest, key =>
    if k = key then mapRemove rest key else (k, v) :: mapRemove rest key

/-- Insertion into the client map, modelling `DashMap::insert` (replaces any
existing entry for the key). -/
def mapInsert {H : Type} (m : List (ClientKey × H)) (key : ClientKey) (v : H) :
    List (ClientKey × H) :=
  (key, v) :: mapRemove m key

/-- Keys of the client map. -/
def mapKeys {H : Type} (m : List (ClientKey × H)) : List ClientKey := m.map Prod.fst

/-- The `order.retain(|existing| existing != key)` step of `bump_key`. -/
def retainNe : List ClientKey → ClientKey → List ClientKey
  | [], _ => []
  | x :: rest, key => if x = key then retainNe rest key else x :: retainNe rest key

/-- The `while order.len() > CLIENT_CACHE_LIMIT` eviction loop of `bump_key`:
pop the front of the queue and remove that key from the map until the bound
holds.  The Rust loop checks the guard before each pop; the guard can only hold
on a non-empty queue, so matching on the queue first is equivalent. -/
def evictLoop {H : Type} : List ClientKey → List (ClientKey × H) →
    List ClientKey × List (ClientKey × H)
  | [], clients => ([], clients)
  | oldest :: rest, clients =>
    if (oldest :: rest).length > CLIENT_CACHE_LIMIT then
      evictLoop rest (mapRemove clients oldest)
    else (oldest :: rest, clients)

/-- `ClientCache::bump_key`: remove every occurrence of the key from the
recency queue, append it at the most-recently-used end, then run the eviction
loop. -/
def bump_key {H : Type} (st : ClientCache H) (key : ClientKey) : ClientCache H :=
  let order := retainNe st.order key ++ [key]
  let p := evictLoop order st.clients
  ⟨p.2, p.1⟩

/-- `ClientCache::get_or_try_insert`.  The `builder` closure is modelled by its
outcome: `Except.error e` when `builder()` would fail, `Except.ok c` when it
would build client `c`.  Returns the call's result with the post-state. -/
def get_or_try_insert {H E : Type} (st : ClientCache H) (key : ClientKey)
    (builder : Except E H) : Except E H × ClientCache H :=
  match mapGet st.clients key with
  | some client => (Except.ok client, bump_key st key)
  | none =>
    match builder with
    | Except.error e => (Except.error e, st)
    | Except.ok client =>
      (Except.ok client, bump_key ⟨mapInsert st.clients key client, st.order⟩ key)

/-- `bucket_timeout` in client.rs, with the `u64` arithmetic of the source made
explicit: in Rust release mode `timeout + TIMEOUT_BUCKET_MS - 1` and the final
multiplication wrap modulo 2^64. -/
def bucket_timeout (timeout : Nat) : Nat :=
  let buckets := ((timeout + TIMEOUT_BUCKET_MS) % U64MOD + (U64MOD - 1)) % U64MOD /
    TIMEOUT_BUCKET_MS
  (max buckets 1) * TIMEOUT_BUCKET_MS % U64MOD

/-- Modelled from the spec: the mathematical bucket formula the spec states,
timeoutBucket = max(1, ceil(timeout / 5000)) times 5000, without any machine
overflow.  Used only to compare the source's `bucket_timeout` against the
spec's words. -/
def bucket_timeout_spec (timeout : Nat) : Nat :=
  max 1 ((timeout + TIMEOUT_BUCKET_MS - 1) / TIMEOUT_BUCKET_MS) * TIMEOUT_BUCKET_MS

/-- Modelled from the spec: emulation profiles (`wreq_util::Emulation`, an
external dependency, not part of src/) are opaque labeled variants; the only
thing client.rs observes about one is its serde serialization, `some label`
when it serializes to a JSON string and `none` when it cannot be named (a
serialization failure or a non-string value). -/
structure Emulation where
  serialized : Option String
deriving DecidableEq

/-- `emulation_label` in client.rs: the serialized name of the profile, or the
fixed default label when the profile cannot be named. -/
def emulation_label (e : Emulation) : String :=
  match e.serialized with
  | some label => label
  | none => "chrome_142"

/-- `RequestOptions` in client.rs.  `headers` keeps the iteration order of the
Rust `HashMap` as a list; `timeout` is a `u64` in milliseconds. -/
structure RequestOptions where
  url : String
  emulation : Emulation
  headers : List (String × String)
  method : String
  body : Option String
  proxy : Option String
  timeout : Nat

/-- The `ClientKey` construction inside `get_or_build_client` in client.rs. -/
def derive_key (options : RequestOptions) : ClientKey :=
  { emulation := emulation_label options.emulation
    proxy := options.proxy
    timeout_bucket := bucket_timeout options.timeout }

/-- `get_or_build_client` in client.rs: derive the key and defer to the cache.
The `build_client(options)` closure is modelled by its outcome `builder`. -/
def get_or_build_client {H E : Type} (st : ClientCache H)
    (options : RequestOptions) (builder : Except E H) :
    Except E H × ClientCache H :=
  get_or_try_insert st (derive_key options) builder

/-- The six HTTP methods client.rs dispatches on (`client.get(&url)` etc.). -/
inductive Method where
  | GET
  | POST
  | PUT
  | DELETE
  | PATCH
  | HEAD
deriving DecidableEq

/-- Rust `str::to_uppercase`, modelled on its ASCII fragment (every method
string the source compares against is ASCII). -/
def toUpperStr (s : String) : String := ⟨s.data.map Char.toUpper⟩

/-- The `match method_upper.as_str()` dispatch in `make_request`: the six
supported methods, `none` for anything else. -/
def parse_method (method_upper : String) : Option Method :=
  if method_upper = "GET" then some Method.GET
  else if method_upper = "POST" then some Method.POST
  else if method_upper = "PUT" then some Method.PUT
  else if method_upper = "DELETE" then some Method.DELETE
  else if method_upper = "PATCH" then some Method.PATCH
  else if method_upper = "HEAD" then some Method.HEAD
  else none

/-- The protocol-level request `make_request` assembles before sending: the
dispatched method, target url, every header-mapping entry in order, the body
verbatim, and the unbucketed timeout. -/
structure OutboundRequest where
  method : Method
  url : String
  headers : List (String × String)
  body : Option String
  timeout : Nat
deriving DecidableEq

/-- What the underlying send yields on success, as observed by client.rs:
numeric status, final uri, the response headers in iteration order (a value is
`none` when `HeaderValue::to_str` fails, i.e. it does not decode as text), and
the outcome of the asynchronous `text()` body read. -/
structure RawResponse where
  status : Nat
  uri : String
  headers : List (String × Option String)
  body_text : Except String String

/-- `Response` in client.rs.  The two `HashMap` fields are modelled as
association lists built by insert-with-replace. -/
structure Response where
  status : Nat
  headers : List (String × String)
  body : String
  cookies : List (String × String)
  url : String

/-- The errors `make_request` can return, by source: a propagated build error,
the unsupported-method `anyhow!` message, a send failure wrapped with its
method-and-url context, and a body-read failure. -/
inductive MakeRequestError (E : Type) where
  | build (e : E)
  | unsupportedMethod (message : String)
  | request (context : String) (e : String)
  | bodyRead (e : String)
deriving DecidableEq

/-- Insert-with-replace into a string map, modelling `HashMap::insert`. -/
def hmRemove : List (String × String) → String → List (String × String)
  | [], _ => []
  | (k, v) :: rest, key =>
    if k = key then hmRemove rest key else (k, v) :: hmRemove rest key

/-- Insert-with-replace into a string map, modelling `HashMap::insert`. -/
def hmInsert (m : List (String × String)) (key value : String) :
    List (String × String) :=
  hmRemove m key ++ [(key, value)]

/-- Lookup in a string map. -/
def hmGet : List (String × String) → String → Option String
  | [], _ => none
  | (k, v) :: rest, key => if k = key then some v else hmGet rest key

/-- The response-header extraction loop of `make_request`: every header whose
value decodes as text is inserted, undecodable values are silently dropped. -/
def extract_headers (headers : List (String × Option String)) :
    List (String × String) :=
  headers.foldl
    (fun acc p =>
      match p.2 with
      | some v => hmInsert acc p.1 v
      | none => acc)
    []

/-- First header with the given name, modelling `HeaderMap::get` (which returns
the first occurrence). -/
def get_first : List (String × Option String) → String → Option (Option String)
  | [], _ => none
  | (k, v) :: rest, name => if k = name then some v else get_first rest name

/-- Rust `str::split(';')` on the underlying characters: the segments between
separators, keeping empty segments, one (possibly empty) segment when the
separator is absent. -/
def splitSep : List Char → Char → List (List Char)
  | [], _ => [[]]
  | c :: rest, sep =>
    if c = sep then [] :: splitSep rest sep
    else
      match splitSep rest sep with
      | [] => [[c]]
      | seg :: segs => (c :: seg) :: segs

/-- Whitespace as trimmed by `str::trim`, restricted to its ASCII fragment. -/
def isWsp (c : Char) : Bool := c = ' ' || c = '\t' || c = '\n' || c = '\r'

/-- Rust `str::trim` on the underlying characters (ASCII whitespace). -/
def trimChars (cs : List Char) : List Char :=
  ((cs.dropWhile isWsp).reverse.dropWhile isWsp).reverse

/-- Rust `str::split_once('=')` on the underlying characters: the parts before
and after the first separator, `none` when the separator is absent. -/
def splitOnceChar : List Char → Char → Option (List Char × List Char)
  | [], _ => none
  | c :: rest, sep =>
    if c = sep then some ([], rest)
    else
      match splitOnceChar rest sep with
      | some (l, r) => some (c :: l, r)
      | none => none

/-- The cookie-string parsing loop of `make_request`: split the header value on
`;`, trim each segment, split each segment on the first `=` into a name/value
pair, and insert it; segments without `=` are skipped. -/
def parse_cookie_str (cookie_str : String) : List (String × String) :=
  (splitSep cookie_str.data ';').foldl
    (fun acc part =>
      match splitOnceChar (trimChars part) '=' with
      | some (k, v) => hmInsert acc ⟨k⟩ ⟨v⟩
      | none => acc)
    []

/-- The cookie extraction of `make_request`: read only the first `set-cookie`
header occurrence; no cookies when it is absent or its value does not decode
as text. -/
def extract_cookies (headers : List (String × Option String)) :
    List (String × String) :=
  match get_first headers "set-cookie" with
  | some (some cookie_str) => parse_cookie_str cookie_str
  | _ => []

/-- `make_request` in client.rs, with its effects made explicit: `st` is the
global cache state, `builder` the outcome `build_client(options)` would have,
and `sendFn` the network: what the asynchronous `send()` on the given client
yields for the assembled request.  Returns the result and the cache
post-state. -/
def make_request {H E : Type} (st : ClientCache H) (options : RequestOptions)
    (builder : Except E H)
    (sendFn : H → OutboundRequest → Except String RawResponse) :
    Except (MakeRequestError E) Response × ClientCache H :=
  match get_or_build_client st options builder with
  | (Except.error e, st1) => (Except.error (MakeRequestError.build e), st1)
  | (Except.ok client, st1) =>
    let method := if options.method = "" then "GET" else options.method
    let method_upper := toUpperStr method
    match parse_method method_upper with
    | none =>
      (Except.error (MakeRequestError.unsupportedMethod
        ("Unsupported HTTP method: " ++ method_upper)), st1)
    | some m =>
      let request : OutboundRequest :=
        { method := m
          url := options.url
          headers := options.headers
          body := options.body
          timeout := options.timeout }
      match sendFn client request with
      | Except.error e =>
        (Except.error (MakeRequestError.request
          (method_upper ++ " " ++ options.url) e), st1)
      | Except.ok response =>
        let response_headers := extract_headers response.headers
        let cookies := extract_cookies response.headers
        match response.body_text with
        | Except.error e => (Except.error (MakeRequestError.bodyRead e), st1)
        | Except.ok body =>
          (Except.ok
            { status := response.status
              headers := response_headers
              body := body
              cookies := cookies
              url := response.uri }, st1)


theorem mapGet_eq_none_iff {H : Type} (m : List (ClientKey × H)) (key : ClientKey) :
    mapGet m key = none ↔ key ∉ mapKeys m := by
  induction m with
  | nil => simp [mapGet, mapKeys]
  | cons p rest ih =>
    obtain ⟨k, v⟩ := p
    rw [mapGet, mapKeys, List.map_cons, List.mem_cons]
    by_cases h : k = key
    · subst h
      simp
    · rw [if_neg h, ih]
      constructor
      · intro hn hk
        rcases hk with hk | hk
        · exact h hk.symm
        · exact hn hk
      · intro hn hk
        exact hn (Or.inr hk)

theorem mapGet_isSome_iff {H : Type} (m : List (ClientKey × H)) (key : ClientKey) :
    (mapGet m key).isSome ↔ key ∈ mapKeys m := by
  rw [Option.isSome_iff_ne_none, Ne, mapGet_eq_none_iff, not_not]

theorem mapGet_selfmap {H : Type} (v : H) (l : List ClientKey) (j : ClientKey) :
    mapGet (l.map (fun k => (k, v))) j = if j ∈ l then some v else none := by
  induction l with
  | nil => rfl
  | cons a t ih =>
    by_cases h : a = j
    · subst h
      simp [mapGet]
    · have h' : ¬ j = a := fun hh => h hh.symm
      simp only [List.map_cons, mapGet, if_neg h, ih, List.mem_cons]
      by_cases hj : j ∈ t <;> simp [hj, h']

theorem mapRemove_of_not_mem {H : Type} (m : List (ClientKey × H)) (k : ClientKey)
    (h : k ∉ mapKeys m) : mapRemove m k = m := by
  induction m with
  | nil => rfl
  | cons p rest ih =>
    obtain ⟨a, v⟩ := p
    simp only [mapKeys, List.map_cons, List.mem_cons] at h
    push_neg at h
    rw [mapRemove, if_neg (fun hh => h.1 hh.symm), ih (by simpa [mapKeys] using h.2)]

theorem mapGet_mapRemove {H : Type} (m : List (ClientKey × H)) (k j : ClientKey) :
    mapGet (mapRemove m k) j = if j = k then none else mapGet m j := by
  induction m with
  | nil => simp [mapRemove, mapGet]
  | cons p rest ih =>
    obtain ⟨a, v⟩ := p
    by_cases hak : a = k
    · subst hak
      rw [mapRemove, if_pos rfl, ih, mapGet]
      by_cases hja : j = a
      · subst hja; simp
      · rw [if_neg (fun hh : a = j => hja hh.symm)]
    · rw [mapRemove, if_neg hak, mapGet, mapGet]
      by_cases hja : a = j
      · have hjk : ¬ j = k := fun hh => hak (hja.trans hh)
        rw [if_pos hja, if_neg hjk, if_pos hja]
      · rw [if_neg hja, ih]
        by_cases hjk : j = k
        · rw [if_pos hjk, if_pos hjk]
        · rw [if_neg hjk, if_neg hjk, if_neg hja]

theorem mapRemove_sublist {H : Type} (m : List (ClientKey × H)) (k : ClientKey) :
    List.Sublist (mapRemove m k) m := by
  induction m with
  | nil => simp [mapRemove]
  | cons p rest ih =>
    obtain ⟨a, v⟩ := p
    by_cases hak : a = k
    · rw [mapRemove, if_pos hak]
      exact ih.cons _
    · rw [mapRemove, if_neg hak]
      exact ih.cons₂ _

theorem mapKeys_mapRemove_nodup {H : Type} (m : List (ClientKey × H)) (k : ClientKey)
    (h : (mapKeys m).Nodup) : (mapKeys (mapRemove m k)).Nodup :=
  h.sublist ((mapRemove_sublist m k).map Prod.fst)

theorem mem_mapKeys_mapRemove {H : Type} (m : List (ClientKey × H)) (k j : ClientKey) :
    j ∈ mapKeys (mapRemove m k) ↔ j ∈ mapKeys m ∧ j ≠ k := by
  rw [← mapGet_isSome_iff, mapGet_mapRemove, ← mapGet_isSome_iff]
  by_cases h : j = k <;> simp [h]

theorem length_mapRemove_of_mem {H : Type} (m : List (ClientKey × H)) (k : ClientKey)
    (hnd : (mapKeys m).Nodup) (hmem : k ∈ mapKeys m) :
    (mapRemove m k).length + 1 = m.length := by
  induction m with
  | nil => simp [mapKeys] at hmem
  | cons p rest ih =>
    obtain ⟨a, v⟩ := p
    simp only [mapKeys, List.map_cons, List.nodup_cons] at hnd
    by_cases hak : a = k
    · subst hak
      rw [mapRemove, if_pos rfl,
        mapRemove_of_not_mem rest a (by simpa [mapKeys] using hnd.1)]
      simp
    · have hmem' : k ∈ mapKeys rest := by
        simp only [mapKeys, List.map_cons, List.mem_cons] at hmem
        rcases hmem with h | h
        · exact absurd h.symm hak
        · simpa [mapKeys] using h
      rw [mapRemove, if_neg hak]
      have := ih (by simpa [mapKeys] using hnd.2) hmem'
      simp only [List.length_cons]
      omega

theorem mapGet_mapInsert {H : Type} (m : List (ClientKey × H)) (key : ClientKey) (c : H)
    (j : ClientKey) :
    mapGet (mapInsert m key c) j = if j = key then some c else mapGet m j := by
  unfold mapInsert
  by_cases h : j = key
  · subst h; rw [mapGet, if_pos rfl, if_pos rfl]
  · rw [mapGet, if_neg (fun hh : key = j => h hh.symm), mapGet_mapRemove, if_neg h, if_neg h]

theorem mapInsert_of_fresh {H : Type} (m : List (ClientKey × H)) (key : ClientKey) (c : H)
    (h : mapGet m key = none) : mapInsert m key c = (key, c) :: m := by
  unfold mapInsert
  rw [mapRemove_of_not_mem m key ((mapGet_eq_none_iff m key).mp h)]

theorem retainNe_of_not_mem (l : List ClientKey) (k : ClientKey) (h : k ∉ l) :
    retainNe l k = l := by
  induction l with
  | nil => rfl
  | cons a t ih =>
    simp only [List.mem_cons] at h
    push_neg at h
    rw [retainNe, if_neg (fun hh => h.1 hh.symm), ih h.2]

theorem retainNe_sublist (l : List ClientKey) (k : ClientKey) :
    List.Sublist (retainNe l k) l := by
  induction l with
  | nil => simp [retainNe]
  | cons a t ih =>
    by_cases h : a = k
    · rw [retainNe, if_pos h]; exact ih.cons _
    · rw [retainNe, if_neg h]; exact ih.cons₂ _

theorem mem_retainNe (l : List ClientKey) (k j : ClientKey) :
    j ∈ retainNe l k ↔ j ∈ l ∧ j ≠ k := by
  induction l with
  | nil => simp [retainNe]
  | cons a t ih =>
    by_cases h : a = k
    · subst h
      rw [retainNe, if_pos rfl, ih, List.mem_cons]
      constructor
      · rintro ⟨h1, h2⟩
        exact ⟨Or.inr h1, h2⟩
      · rintro ⟨h1 | h1, h2⟩
        · exact absurd h1 h2
        · exact ⟨h1, h2⟩
    · rw [retainNe, if_neg h, List.mem_cons, List.mem_cons, ih]
      constructor
      · rintro (h1 | ⟨h1, h2⟩)
        · exact ⟨Or.inl h1, fun hh => h (h1.symm.trans hh)⟩
        · exact ⟨Or.inr h1, h2⟩
      · rintro ⟨h1 | h1, h2⟩
        · exact Or.inl h1
        · exact Or.inr ⟨h1, h2⟩

theorem length_retainNe_of_mem (l : List ClientKey) (k : ClientKey)
    (hnd : l.Nodup) (h : k ∈ l) : (retainNe l k).length + 1 = l.length := by
  induction l with
  | nil => simp at h
  | cons a t ih =>
    rw [List.nodup_cons] at hnd
    by_cases hak : a = k
    · subst hak
      rw [retainNe, if_pos rfl, retainNe_of_not_mem t a hnd.1]
      simp
    · have h' : k ∈ t := by
        rcases List.mem_cons.mp h with hh | hh
        · exact absurd hh.symm hak
        · exact hh
      rw [retainNe, if_neg hak]
      have := ih hnd.2 h'
      simp only [List.length_cons]
      omega

theorem retainNe_nodup (l : List ClientKey) (k : ClientKey) (h : l.Nodup) :
    (retainNe l k).Nodup :=
  h.sublist (retainNe_sublist l k)


theorem evictLoop_of_le {H : Type} (order : List ClientKey) (clients : List (ClientKey × H))
    (h : order.length ≤ CLIENT_CACHE_LIMIT) : evictLoop order clients = (order, clients) := by
  cases order with
  | nil => rfl
  | cons a t => rw [evictLoop, if_neg (Nat.not_lt.mpr h)]

theorem evictLoop_cons_of_gt {H : Type} (a : ClientKey) (t : List ClientKey)
    (clients : List (ClientKey × H)) (h : (a :: t).length > CLIENT_CACHE_LIMIT) :
    evictLoop (a :: t) clients = evictLoop t (mapRemove clients a) := by
  rw [evictLoop, if_pos h]

theorem bump_key_no_evict {H : Type} (st : ClientCache H) (key : ClientKey)
    (h : (retainNe st.order key).length + 1 ≤ CLIENT_CACHE_LIMIT) :
    bump_key st key = ⟨st.clients, retainNe st.order key ++ [key]⟩ := by
  simp only [bump_key]
  rw [evictLoop_of_le _ _ (by simpa using h)]

theorem bump_key_evict_one {H : Type} (st : ClientCache H) (key hd : ClientKey)
    (tl : List ClientKey) (horder : st.order = hd :: tl) (hnot : key ∉ st.order)
    (hlen : st.order.length = CLIENT_CACHE_LIMIT) :
    bump_key st key = ⟨mapRemove st.clients hd, tl ++ [key]⟩ := by
  have htl : tl.length + 1 = CLIENT_CACHE_LIMIT := by
    rw [horder] at hlen
    simpa using hlen
  simp only [bump_key]
  rw [retainNe_of_not_mem _ _ hnot, horder, List.cons_append,
    evictLoop_cons_of_gt _ _ _ (by simp; omega),
    evictLoop_of_le _ _ (by simp; omega)]

/-- The invariant the cache maintains at rest: the recency queue has no
duplicates, the map has no duplicate keys, the queue is within the capacity
bound, and the queue's key set equals the map's key set. -/
structure CacheInv {H : Type} (st : ClientCache H) : Prop where
  order_nodup : st.order.Nodup
  keys_nodup : (mapKeys st.clients).Nodup
  bounded : st.order.length ≤ CLIENT_CACHE_LIMIT
  keys_eq : ∀ k, (mapGet st.clients k).isSome ↔ k ∈ st.order

theorem CacheInv.not_mem_of_fresh {H : Type} {st : ClientCache H} {key : ClientKey}
    (hinv : CacheInv st) (hfresh : mapGet st.clients key = none) : key ∉ st.order := by
  intro hmem
  have := (hinv.keys_eq key).mpr hmem
  rw [hfresh] at this
  exact Bool.noConfusion this

theorem CacheInv.mem_of_hit {H : Type} {st : ClientCache H} {key : ClientKey} {c : H}
    (hinv : CacheInv st) (hm : mapGet st.clients key = some c) : key ∈ st.order :=
  (hinv.keys_eq key).mp (by rw [hm]; rfl)

theorem CacheInv.clients_length {H : Type} {st : ClientCache H} (hinv : CacheInv st) :
    st.clients.length = st.order.length := by
  have hmem : ∀ a, a ∈ mapKeys st.clients ↔ a ∈ st.order := by
    intro a
    rw [← mapGet_isSome_iff]
    exact hinv.keys_eq a
  have hperm := (List.perm_ext_iff_of_nodup hinv.keys_nodup hinv.order_nodup).mpr hmem
  have := hperm.length_eq
  simpa [mapKeys] using this

theorem cacheInv_empty (H : Type) : CacheInv (ClientCache.empty H) := by
  refine ⟨List.nodup_nil, List.nodup_nil, by simp [ClientCache.empty, CLIENT_CACHE_LIMIT], ?_⟩
  intro k
  simp [ClientCache.empty, mapGet, mapKeys]

theorem get_or_try_insert_hit {H E : Type} (st : ClientCache H) (key : ClientKey) (c : H)
    (b : Except E H) (hm : mapGet st.clients key = some c) :
    get_or_try_insert st key b = (Except.ok c, bump_key st key) := by
  simp only [get_or_try_insert, hm]

theorem get_or_try_insert_miss_error {H E : Type} (st : ClientCache H) (key : ClientKey)
    (e : E) (hm : mapGet st.clients key = none) :
    get_or_try_insert st key (Except.error e) = (Except.error e, st) := by
  simp only [get_or_try_insert, hm]

theorem get_or_try_insert_miss_ok {H E : Type} (st : ClientCache H) (key : ClientKey)
    (c : H) (hm : mapGet st.clients key = none) :
    get_or_try_insert st key ((Except.ok c : Except E H)) =
      (Except.ok c, bump_key ⟨mapInsert st.clients key c, st.order⟩ key) := by
  simp only [get_or_try_insert, hm]

theorem bump_key_hit {H : Type} (st : ClientCache H) (key : ClientKey)
    (hinv : CacheInv st) (hmem : key ∈ st.order) :
    bump_key st key = ⟨st.clients, retainNe st.order key ++ [key]⟩ := by
  refine bump_key_no_evict st key ?_
  rw [length_retainNe_of_mem st.order key hinv.order_nodup hmem]
  exact hinv.bounded

theorem cacheInv_hit {H : Type} (st : ClientCache H) (key : ClientKey)
    (hinv : CacheInv st) (hmem : key ∈ st.order) :
    CacheInv (⟨st.clients, retainNe st.order key ++ [key]⟩ : ClientCache H) := by
  refine ⟨?_, hinv.keys_nodup, ?_, ?_⟩
  · rw [List.nodup_append]
    refine ⟨retainNe_nodup _ _ hinv.order_nodup, List.nodup_singleton key, ?_⟩
    intro a ha hb
    rw [List.mem_singleton] at hb
    subst hb
    exact ((mem_retainNe _ _ _).mp ha).2 rfl
  · rw [List.length_append, List.length_singleton,
      length_retainNe_of_mem st.order key hinv.order_nodup hmem]
    exact hinv.bounded
  · intro k
    rw [hinv.keys_eq k, List.mem_append, List.mem_singleton, mem_retainNe]
    constructor
    · intro h
      by_cases hk : k = key
      · exact Or.inr hk
      · exact Or.inl ⟨h, hk⟩
    · rintro (⟨h, _⟩ | h)
      · exact h
      · exact h ▸ hmem

theorem cacheInv_insert_fresh {H : Type} (st : ClientCache H) (key : ClientKey) (c : H)
    (hinv : CacheInv st) (hfresh : mapGet st.clients key = none)
    (hroom : st.order.length < CLIENT_CACHE_LIMIT) :
    CacheInv (⟨mapInsert st.clients key c, st.order ++ [key]⟩ : ClientCache H) := by
  have hnot : key ∉ st.order := hinv.not_mem_of_fresh hfresh
  have hnotk : key ∉ mapKeys st.clients := (mapGet_eq_none_iff _ _).mp hfresh
  refine ⟨?_, ?_, ?_, ?_⟩
  · rw [List.nodup_append]
    refine ⟨hinv.order_nodup, List.nodup_singleton key, ?_⟩
    intro a ha hb
    rw [List.mem_singleton] at hb
    subst hb
    exact hnot ha
  · rw [mapInsert_of_fresh _ _ _ hfresh, mapKeys, List.map_cons, List.nodup_cons]
    exact ⟨hnotk, hinv.keys_nodup⟩
  · rw [List.length_append, List.length_singleton]
    omega
  · intro k
    rw [mapGet_mapInsert, List.mem_append, List.mem_singleton]
    by_cases hk : k = key
    · simp [hk]
    · rw [if_neg hk, hinv.keys_eq k]
      simp [hk]

theorem get_insert_fresh {H E : Type} (st : ClientCache H) (key : ClientKey) (c : H)
    (hinv : CacheInv st) (hfresh : mapGet st.clients key = none)
    (hroom : st.order.length < CLIENT_CACHE_LIMIT) :
    get_or_try_insert st key ((Except.ok c : Except E H)) =
      (Except.ok c, ⟨mapInsert st.clients key c, st.order ++ [key]⟩) := by
  rw [get_or_try_insert_miss_ok st key c hfresh]
  have hnot : key ∉ st.order := hinv.not_mem_of_fresh hfresh
  rw [bump_key_no_evict]
  · rw [retainNe_of_not_mem st.order key hnot]
  · rw [retainNe_of_not_mem st.order key hnot]
    omega

theorem cacheInv_insert_full {H : Type} (st : ClientCache H) (key hd : ClientKey)
    (tl : List ClientKey) (c : H) (hinv : CacheInv st)
    (hfresh : mapGet st.clients key = none) (horder : st.order = hd :: tl)
    (hfull : st.order.length = CLIENT_CACHE_LIMIT) :
    CacheInv (⟨mapRemove (mapInsert st.clients key c) hd, tl ++ [key]⟩ : ClientCache H) := by
  have hnot : key ∉ st.order := hinv.not_mem_of_fresh hfresh
  have hnotk : key ∉ mapKeys st.clients := (mapGet_eq_none_iff _ _).mp hfresh
  have hhd : hd ∈ st.order := by rw [horder]; exact List.mem_cons_self hd tl
  have hhdk : hd ≠ key := fun hh => hnot (hh ▸ hhd)
  have hndtl : tl.Nodup ∧ hd ∉ tl := by
    have := hinv.order_nodup
    rw [horder, List.nodup_cons] at this
    exact ⟨this.2, this.1⟩
  have hknotl : key ∉ tl := fun hh => hnot (by rw [horder]; exact List.mem_cons_of_mem hd hh)
  refine ⟨?_, ?_, ?_, ?_⟩
  · rw [List.nodup_append]
    refine ⟨hndtl.1, List.nodup_singleton key, ?_⟩
    intro a ha hb
    rw [List.mem_singleton] at hb
    subst hb
    exact hknotl ha
  · refine mapKeys_mapRemove_nodup _ _ ?_
    rw [mapInsert_of_fresh _ _ _ hfresh, mapKeys, List.map_cons, List.nodup_cons]
    exact ⟨hnotk, hinv.keys_nodup⟩
  · rw [horder] at hfull
    rw [List.length_append, List.length_singleton]
    simp at hfull
    omega
  · intro k
    rw [mapGet_mapRemove, mapGet_mapInsert, List.mem_append, List.mem_singleton]
    by_cases hk : k = hd
    · subst hk
      rw [if_pos rfl]
      simp [hndtl.2, hhdk]
    · rw [if_neg hk]
      by_cases hkey : k = key
      · simp [hkey]
      · rw [if_neg hkey, hinv.keys_eq k, horder, List.mem_cons]
        simp [hk, hkey]

theorem get_insert_full {H E : Type} (st : ClientCache H) (key hd : ClientKey)
    (tl : List ClientKey) (c : H) (hinv : CacheInv st)
    (hfresh : mapGet st.clients key = none) (horder : st.order = hd :: tl)
    (hfull : st.order.length = CLIENT_CACHE_LIMIT) :
    get_or_try_insert st key ((Except.ok c : Except E H)) =
      (Except.ok c, ⟨mapRemove (mapInsert st.clients key c) hd, tl ++ [key]⟩) := by
  have hnot : key ∉ st.order := hinv.not_mem_of_fresh hfresh
  rw [get_or_try_insert_miss_ok st key c hfresh,
    bump_key_evict_one ⟨mapInsert st.clients key c, st.order⟩ key hd tl horder hnot hfull]

theorem cacheInv_step {H E : Type} (st : ClientCache H) (key : ClientKey) (b : Except E H)
    (hinv : CacheInv st) : CacheInv (get_or_try_insert st key b).2 := by
  cases hm : mapGet st.clients key with
  | some c =>
    rw [get_or_try_insert_hit st key c b hm, bump_key_hit st key hinv (hinv.mem_of_hit hm)]
    exact cacheInv_hit st key hinv (hinv.mem_of_hit hm)
  | none =>
    cases b with
    | error e =>
      rw [get_or_try_insert_miss_error st key e hm]
      exact hinv
    | ok c =>
      by_cases hroom : st.order.length < CLIENT_CACHE_LIMIT
      · rw [get_insert_fresh st key c hinv hm hroom]
        exact cacheInv_insert_fresh st key c hinv hm hroom
      · have hfull : st.order.length = CLIENT_CACHE_LIMIT :=
          Nat.le_antisymm hinv.bounded (Nat.not_lt.mp hroom)
        cases horder : st.order with
        | nil =>
          exfalso
          rw [horder] at hfull
          simp [CLIENT_CACHE_LIMIT] at hfull
        | cons hd tl =>
          rw [get_insert_full st key hd tl c hinv hm horder hfull]
          exact cacheInv_insert_full st key hd tl c hinv hm horder hfull


/-- A sequence of cache accesses whose builds all succeed with handle `hv`,
folded through `get_or_try_insert` (used to state the spec's eviction-order
scenario). -/
def insertAll {H : Type} (st : ClientCache H) (keys : List ClientKey) (hv : H) :
    ClientCache H :=
  keys.foldl (fun s k => (get_or_try_insert s k (Except.ok hv : Except Unit H)).2) st

theorem insertAll_nil {H : Type} (st : ClientCache H) (hv : H) :
    insertAll st [] hv = st := rfl

theorem insertAll_cons {H : Type} (st : ClientCache H) (k : ClientKey)
    (ks : List ClientKey) (hv : H) :
    insertAll st (k :: ks) hv =
      insertAll (get_or_try_insert st k (Except.ok hv : Except Unit H)).2 ks hv := rfl

theorem insertAll_fresh {H : Type} (hv : H) :
    ∀ (keys : List ClientKey) (st : ClientCache H), CacheInv st → keys.Nodup →
    (∀ k, k ∈ keys → mapGet st.clients k = none) →
    st.order.length + keys.length ≤ CLIENT_CACHE_LIMIT →
    (insertAll st keys hv).order = st.order ++ keys ∧
    (∀ k, mapGet (insertAll st keys hv).clients k =
      if k ∈ keys then some hv else mapGet st.clients k) ∧
    CacheInv (insertAll st keys hv) := by
  intro keys
  induction keys with
  | nil =>
    intro st hinv _ _ _
    refine ⟨by simp [insertAll_nil], ?_, by simpa [insertAll_nil] using hinv⟩
    intro k
    simp [insertAll_nil]
  | cons a ks ih =>
    intro st hinv hnd hfresh hlen
    rw [List.nodup_cons] at hnd
    have hfa : mapGet st.clients a = none := hfresh a (List.mem_cons_self a ks)
    have hroom : st.order.length < CLIENT_CACHE_LIMIT := by
      simp only [List.length_cons] at hlen
      omega
    have hstate : (get_or_try_insert st a (Except.ok hv : Except Unit H)).2 =
        ⟨mapInsert st.clients a hv, st.order ++ [a]⟩ := by
      rw [get_insert_fresh (E := Unit) st a hv hinv hfa hroom]
    rw [insertAll_cons, hstate]
    have hinv1 : CacheInv (⟨mapInsert st.clients a hv, st.order ++ [a]⟩ : ClientCache H) :=
      cacheInv_insert_fresh st a hv hinv hfa hroom
    have hfresh1 : ∀ k, k ∈ ks →
        mapGet (⟨mapInsert st.clients a hv, st.order ++ [a]⟩ : ClientCache H).clients k
          = none := by
      intro k hk
      have hka : ¬ k = a := fun hh => hnd.1 (hh ▸ hk)
      show mapGet (mapInsert st.clients a hv) k = none
      rw [mapGet_mapInsert, if_neg hka]
      exact hfresh k (List.mem_cons_of_mem a hk)
    have hlen1 : (⟨mapInsert st.clients a hv, st.order ++ [a]⟩ : ClientCache H).order.length
        + ks.length ≤ CLIENT_CACHE_LIMIT := by
      show (st.order ++ [a]).length + ks.length ≤ CLIENT_CACHE_LIMIT
      simp only [List.length_append, List.length_cons, List.length_nil] at hlen ⊢
      omega
    obtain ⟨ho, hm, hi⟩ :=
      ih ⟨mapInsert st.clients a hv, st.order ++ [a]⟩ hinv1 hnd.2 hfresh1 hlen1
    refine ⟨?_, ?_, hi⟩
    · rw [ho]
      simp
    · intro k
      rw [hm k]
      by_cases hk : k ∈ ks
      · rw [if_pos hk, if_pos (List.mem_cons_of_mem a hk)]
      · rw [if_neg hk]
        show mapGet (mapInsert st.clients a hv) k =
          if k ∈ a :: ks then some hv else mapGet st.clients k
        rw [mapGet_mapInsert]
        by_cases hka : k = a
        · subst hka
          rw [if_pos rfl, if_pos (List.mem_cons_self k ks)]
        · rw [if_neg hka, if_neg (by simp [List.mem_cons, hka, hk])]

/-- The spec's eviction-order scenario: from the empty cache insert A, B, C in
order, touch A again (a hit), fill the cache with `filler` fresh keys, then
insert one more fresh key D, overflowing the capacity. -/
def lruScenario {H : Type} (hv : H) (kA kB kC kD : ClientKey)
    (filler : List ClientKey) : ClientCache H :=
  let st1 := insertAll (ClientCache.empty H) [kA, kB, kC] hv
  let st2 := (get_or_try_insert st1 kA (Except.ok hv : Except Unit H)).2
  let st3 := insertAll st2 filler hv
  (get_or_try_insert st3 kD (Except.ok hv : Except Unit H)).2

theorem lruScenario_evicts_B {H : Type} (hv : H) (kA kB kC kD : ClientKey)
    (filler : List ClientKey)
    (hAB : kA ≠ kB) (hAC : kA ≠ kC) (hAD : kA ≠ kD) (hBC : kB ≠ kC) (hBD : kB ≠ kD)
    (hCD : kC ≠ kD) (hnd : filler.Nodup) (hlen : filler.length + 3 = CLIENT_CACHE_LIMIT)
    (hAf : kA ∉ filler) (hBf : kB ∉ filler) (hCf : kC ∉ filler) (hDf : kD ∉ filler) :
    mapGet (lruScenario hv kA kB kC kD filler).clients kB = none ∧
    kB ∉ (lruScenario hv kA kB kC kD filler).order ∧
    (mapGet (lruScenario hv kA kB kC kD filler).clients kA).isSome ∧
    (mapGet (lruScenario hv kA kB kC kD filler).clients kC).isSome ∧
    (mapGet (lruScenario hv kA kB kC kD filler).clients kD).isSome := by
  obtain ⟨ho1, hm1, hi1⟩ := insertAll_fresh hv [kA, kB, kC] (ClientCache.empty H)
    (cacheInv_empty H)
    (by simp [hAB, hAC, hBC])
    (by intro k _; rfl)
    (by
      show ([] : List ClientKey).length + ([kA, kB, kC] : List ClientKey).length ≤
        CLIENT_CACHE_LIMIT
      simp only [List.length_cons, List.length_nil, CLIENT_CACHE_LIMIT]
      omega)
  set st1 : ClientCache H := insertAll (ClientCache.empty H) [kA, kB, kC] hv with hst1
  have ho1' : st1.order = [kA, kB, kC] := by
    rw [ho1]
    rfl
  -- step 2: touching kA is a hit
  have hhit : mapGet st1.clients kA = some hv := by
    rw [hm1 kA, if_pos (by simp)]
  have hmemA : kA ∈ st1.order := hi1.mem_of_hit hhit
  have hstate2 : (get_or_try_insert st1 kA (Except.ok hv : Except Unit H)).2 =
      ⟨st1.clients, retainNe st1.order kA ++ [kA]⟩ := by
    rw [get_or_try_insert_hit st1 kA hv _ hhit, bump_key_hit st1 kA hi1 hmemA]
  have hretain : retainNe st1.order kA ++ [kA] = [kB, kC, kA] := by
    rw [ho1']
    simp [retainNe, hAB.symm, hAC.symm]
  have hinv2 : CacheInv (⟨st1.clients, [kB, kC, kA]⟩ : ClientCache H) := by
    have := cacheInv_hit st1 kA hi1 hmemA
    rwa [hretain] at this
  have hstate2' : (get_or_try_insert st1 kA (Except.ok hv : Except Unit H)).2 =
      ⟨st1.clients, [kB, kC, kA]⟩ := by
    rw [hstate2, hretain]
  -- step 3: fill the cache
  obtain ⟨ho3, hm3, hi3⟩ := insertAll_fresh hv filler (⟨st1.clients, [kB, kC, kA]⟩ : ClientCache H)
    hinv2 hnd
    (by
      intro k hk
      show mapGet st1.clients k = none
      rw [hm1 k, if_neg]
      · rfl
      · simp only [List.mem_cons, List.not_mem_nil, or_false]
        push_neg
        refine ⟨?_, ?_, ?_⟩
        · exact fun hh => hAf (hh ▸ hk)
        · exact fun hh => hBf (hh ▸ hk)
        · exact fun hh => hCf (hh ▸ hk))
    (by
      show ([kB, kC, kA] : List ClientKey).length + filler.length ≤ CLIENT_CACHE_LIMIT
      simp only [List.length_cons, List.length_nil]
      omega)
  set st3 : ClientCache H := insertAll (⟨st1.clients, [kB, kC, kA]⟩ : ClientCache H) filler hv
    with hst3
  have ho3' : st3.order = kB :: (kC :: kA :: filler) := by
    rw [ho3]
    rfl
  -- step 4: inserting kD overflows; the front kB is evicted
  have hfreshD : mapGet st3.clients kD = none := by
    rw [hm3 kD, if_neg hDf]
    show mapGet st1.clients kD = none
    rw [hm1 kD, if_neg]
    · rfl
    · simp only [List.mem_cons, List.not_mem_nil, or_false]
      push_neg
      exact ⟨fun hh => hAD hh.symm, fun hh => hBD hh.symm, fun hh => hCD hh.symm⟩
  have hfull : st3.order.length = CLIENT_CACHE_LIMIT := by
    rw [ho3']
    simp only [List.length_cons]
    omega
  have hstate4 : (get_or_try_insert st3 kD (Except.ok hv : Except Unit H)).2 =
      ⟨mapRemove (mapInsert st3.clients kD hv) kB, (kC :: kA :: filler) ++ [kD]⟩ := by
    rw [get_insert_full (E := Unit) st3 kD kB (kC :: kA :: filler) hv hi3 hfreshD ho3' hfull]
  have hfinal : lruScenario hv kA kB kC kD filler =
      ⟨mapRemove (mapInsert st3.clients kD hv) kB, (kC :: kA :: filler) ++ [kD]⟩ := by
    show (get_or_try_insert (insertAll ((get_or_try_insert
        (insertAll (ClientCache.empty H) [kA, kB, kC] hv) kA
        (Except.ok hv : Except Unit H)).2) filler hv) kD (Except.ok hv : Except Unit H)).2 = _
    rw [← hst1, hstate2', ← hst3, hstate4]
  rw [hfinal]
  have hgetA : mapGet st3.clients kA = some hv := by
    rw [hm3 kA, if_neg hAf, hm1 kA, if_pos (by simp)]
  have hgetC : mapGet st3.clients kC = some hv := by
    rw [hm3 kC, if_neg hCf, hm1 kC, if_pos (by simp)]
  refine ⟨?_, ?_, ?_, ?_, ?_⟩
  · show mapGet (mapRemove (mapInsert st3.clients kD hv) kB) kB = none
    rw [mapGet_mapRemove, if_pos rfl]
  · show kB ∉ (kC :: kA :: filler) ++ [kD]
    simp only [List.mem_append, List.mem_cons, List.mem_singleton, List.not_mem_nil, or_false]
    push_neg
    exact ⟨⟨hBC, fun hh => hAB hh.symm, hBf⟩, hBD⟩
  · show (mapGet (mapRemove (mapInsert st3.clients kD hv) kB) kA).isSome
    rw [mapGet_mapRemove, if_neg hAB, mapGet_mapInsert, if_neg hAD, hgetA]
    rfl
  · show (mapGet (mapRemove (mapInsert st3.clients kD hv) kB) kC).isSome
    rw [mapGet_mapRemove, if_neg (fun hh => hBC hh.symm), mapGet_mapInsert, if_neg hCD, hgetC]
    rfl
  · show (mapGet (mapRemove (mapInsert st3.clients kD hv) kB) kD).isSome
    rw [mapGet_mapRemove, if_neg (fun hh => hBD hh.symm), mapGet_mapInsert, if_pos rfl]
    rfl


/-- Concrete key family with numeric timeout buckets, for witness states. -/
def natKey (i : Nat) : ClientKey := ⟨"", none, i⟩

theorem natKey_injective : Function.Injective natKey := by
  intro a b h
  simpa [natKey] using congrArg ClientKey.timeout_bucket h

theorem not_mem_natKeys (s : String) (p : Option String) (t n : Nat) (hs : s ≠ "") :
    (⟨s, p, t⟩ : ClientKey) ∉ (List.range n).map natKey := by
  intro hmem
  rw [List.mem_map] at hmem
  obtain ⟨i, _, hi⟩ := hmem
  exact hs (congrArg ClientKey.emulation hi).symm

theorem cacheInv_selfmap {H : Type} (v : H) (l : List ClientKey) (hnd : l.Nodup)
    (hlen : l.length ≤ CLIENT_CACHE_LIMIT) :
    CacheInv (⟨l.map (fun k => (k, v)), l⟩ : ClientCache H) := by
  refine ⟨hnd, ?_, hlen, ?_⟩
  · show ((l.map (fun k => (k, v))).map Prod.fst).Nodup
    rw [List.map_map]
    have h : (Prod.fst ∘ fun k : ClientKey => (k, v)) = (id : ClientKey → ClientKey) := by
      funext x
      rfl
    rw [h, List.map_id]
    exact hnd
  · intro k
    show (mapGet (l.map fun k => (k, v)) k).isSome ↔ k ∈ l
    rw [mapGet_selfmap]
    by_cases hk : k ∈ l <;> simp [hk]

/-- A full concrete cache: the 1024 distinct keys of `capKeys`. -/
def capKeys : List ClientKey := (List.range CLIENT_CACHE_LIMIT).map natKey

/-- A full concrete cache state, used to witness the capacity theorems. -/
def capState : ClientCache Unit := ⟨capKeys.map (fun k => (k, ())), capKeys⟩

theorem capKeys_nodup : capKeys.Nodup := (List.nodup_range _).map natKey_injective

theorem capState_inv : CacheInv capState :=
  cacheInv_selfmap () capKeys capKeys_nodup (by simp [capKeys])

/-- Claim C1: after every completed get_or_try_insert call the cache holds at
most 1024 distinct keys (both the recency queue and the client map stay within
CLIENT_CACHE_LIMIT); and inserting a fresh key into a full cache evicts exactly
one key, the least-recently-touched one: the post-state is the old map plus
the new key minus the front key of the recency queue, the front key is gone,
and both sizes remain exactly 1024. -/
theorem cache_capacity_bound {H E : Type} (st : ClientCache H) (key : ClientKey)
    (b : Except E H) (hinv : CacheInv st) :
    ((get_or_try_insert st key b).2.order.length ≤ CLIENT_CACHE_LIMIT ∧
      (get_or_try_insert st key b).2.clients.length ≤ CLIENT_CACHE_LIMIT) ∧
    (∀ (c : H) (hd : ClientKey) (tl : List ClientKey),
      mapGet st.clients key = none → st.order = hd :: tl →
      st.order.length = CLIENT_CACHE_LIMIT →
      (get_or_try_insert st key (Except.ok c : Except E H)).2 =
        ⟨mapRemove (mapInsert st.clients key c) hd, tl ++ [key]⟩ ∧
      mapGet (get_or_try_insert st key (Except.ok c : Except E H)).2.clients hd = none ∧
      (get_or_try_insert st key (Except.ok c : Except E H)).2.clients.length =
        CLIENT_CACHE_LIMIT ∧
      (get_or_try_insert st key (Except.ok c : Except E H)).2.order.length =
        CLIENT_CACHE_LIMIT) := by
  constructor
  · have hinv2 := cacheInv_step st key b hinv
    refine ⟨hinv2.bounded, ?_⟩
    rw [hinv2.clients_length]
    exact hinv2.bounded
  · intro c hd tl hfresh horder hfull
    have hstate := get_insert_full (E := E) st key hd tl c hinv hfresh horder hfull
    have hhd : hd ∈ st.order := by rw [horder]; exact List.mem_cons_self hd tl
    have hnot : key ∉ st.order := hinv.not_mem_of_fresh hfresh
    have hhdk : ¬ hd = key := fun hh => hnot (hh ▸ hhd)
    refine ⟨by rw [hstate], ?_, ?_, ?_⟩
    · rw [hstate]
      show mapGet (mapRemove (mapInsert st.clients key c) hd) hd = none
      rw [mapGet_mapRemove, if_pos rfl]
    · rw [hstate]
      show (mapRemove (mapInsert st.clients key c) hd).length = CLIENT_CACHE_LIMIT
      rw [mapInsert_of_fresh _ _ _ hfresh, mapRemove, if_neg (fun hh => hhdk hh.symm)]
      have h1 : (mapRemove st.clients hd).length + 1 = st.clients.length :=
        length_mapRemove_of_mem st.clients hd hinv.keys_nodup
          (by rw [← mapGet_isSome_iff, hinv.keys_eq hd]; exact hhd)
      have h2 : st.clients.length = st.order.length := hinv.clients_length
      simp only [List.length_cons]
      omega
    · rw [hstate]
      show (tl ++ [key]).length = CLIENT_CACHE_LIMIT
      rw [horder] at hfull
      simp only [List.length_append, List.length_cons, List.length_nil] at hfull ⊢
      omega

/-- Witness for claim C1 at a concrete full cache. -/
theorem cache_capacity_bound_witness :
    CacheInv capState ∧
    ((get_or_try_insert capState (ClientKey.mk "x" none 0)
        (Except.ok () : Except Unit Unit)).2.order.length ≤ CLIENT_CACHE_LIMIT ∧
      (get_or_try_insert capState (ClientKey.mk "x" none 0)
        (Except.ok () : Except Unit Unit)).2.clients.length ≤ CLIENT_CACHE_LIMIT) :=
  ⟨capState_inv,
    (cache_capacity_bound capState (ClientKey.mk "x" none 0)
      (Except.ok () : Except Unit Unit) capState_inv).1⟩

/-- Claim C8: the recency queue never contains duplicate keys, and after every
completed cache operation (hit, successful insert, or failed build) the key set
of the recency queue equals the key set of the client map. -/
theorem cache_queue_map_agree {H E : Type} (st : ClientCache H) (key : ClientKey)
    (b : Except E H) (hinv : CacheInv st) :
    (get_or_try_insert st key b).2.order.Nodup ∧
    (∀ k, (mapGet (get_or_try_insert st key b).2.clients k).isSome ↔
      k ∈ (get_or_try_insert st key b).2.order) :=
  ⟨(cacheInv_step st key b hinv).order_nodup, (cacheInv_step st key b hinv).keys_eq⟩

/-- Witness for claim C8 at the empty cache. -/
theorem cache_queue_map_agree_witness :
    CacheInv (ClientCache.empty Unit) ∧
    ((get_or_try_insert (ClientCache.empty Unit) (ClientKey.mk "x" none 0)
        (Except.ok () : Except Unit Unit)).2.order.Nodup ∧
      (∀ k, (mapGet (get_or_try_insert (ClientCache.empty Unit) (ClientKey.mk "x" none 0)
          (Except.ok () : Except Unit Unit)).2.clients k).isSome ↔
        k ∈ (get_or_try_insert (ClientCache.empty Unit) (ClientKey.mk "x" none 0)
          (Except.ok () : Except Unit Unit)).2.order)) :=
  ⟨cacheInv_empty Unit,
    cache_queue_map_agree (ClientCache.empty Unit) (ClientKey.mk "x" none 0)
      (Except.ok () : Except Unit Unit) (cacheInv_empty Unit)⟩

/-- Claim C10: on a cache hit, get_or_try_insert returns the handle already
stored for the key and never consults the builder (the result is the same
whatever the builder outcome is), the client map is left unchanged, and only
the recency queue is reordered: the key moves to the most-recently-used end. -/
theorem cache_hit_frame {H E : Type} (st : ClientCache H) (key : ClientKey) (c : H)
    (b : Except E H) (hinv : CacheInv st) (hm : mapGet st.clients key = some c) :
    get_or_try_insert st key b = (Except.ok c, bump_key st key) ∧
    (get_or_try_insert st key b).2.clients = st.clients ∧
    (get_or_try_insert st key b).2.order = retainNe st.order key ++ [key] := by
  have hmem := hinv.mem_of_hit hm
  have h1 := get_or_try_insert_hit st key c b hm
  have h2 := bump_key_hit st key hinv hmem
  refine ⟨h1, ?_, ?_⟩
  · rw [h1]
    show (bump_key st key).clients = st.clients
    rw [h2]
  · rw [h1]
    show (bump_key st key).order = retainNe st.order key ++ [key]
    rw [h2]

/-- A one-entry concrete cache, used to witness the hit theorems. -/
def hitKey : ClientKey := ⟨"w", none, 5000⟩

/-- A one-entry concrete cache, used to witness the hit theorems. -/
def hitState : ClientCache Unit := ⟨[(hitKey, ())], [hitKey]⟩

theorem hitState_inv : CacheInv hitState :=
  cacheInv_selfmap () [hitKey] (List.nodup_singleton _) (by simp [CLIENT_CACHE_LIMIT])

theorem hitState_get : mapGet hitState.clients hitKey = some () := by
  show mapGet [(hitKey, ())] hitKey = some ()
  rw [mapGet, if_pos rfl]

/-- Witness for claim C10: a hit on a one-entry cache, with a failing builder,
still returns the stored handle and leaves the map unchanged. -/
theorem cache_hit_frame_witness :
    CacheInv hitState ∧ mapGet hitState.clients hitKey = some () ∧
    (get_or_try_insert hitState hitKey (Except.error () : Except Unit Unit) =
        (Except.ok (), bump_key hitState hitKey) ∧
      (get_or_try_insert hitState hitKey (Except.error () : Except Unit Unit)).2.clients =
        hitState.clients ∧
      (get_or_try_insert hitState hitKey (Except.error () : Except Unit Unit)).2.order =
        retainNe hitState.order hitKey ++ [hitKey]) :=
  ⟨hitState_inv, hitState_get,
    cache_hit_frame hitState hitKey () (Except.error () : Except Unit Unit)
      hitState_inv hitState_get⟩

/-- Claim C4: when the builder fails for a key not in the cache,
get_or_try_insert returns the build error and leaves the cache state completely
unchanged; the key has no map entry and no recency-queue entry; and a
subsequent call for the same key runs construction again and, when it
succeeds, returns and installs the new handle. -/
theorem build_failure_no_poison {H E : Type} (st : ClientCache H) (key : ClientKey)
    (e : E) (c : H) (hinv : CacheInv st) (hfresh : mapGet st.clients key = none) :
    get_or_try_insert st key (Except.error e : Except E H) = (Except.error e, st) ∧
    key ∉ st.order ∧
    (get_or_try_insert st key (Except.ok c : Except E H)).1 = Except.ok c ∧
    mapGet (get_or_try_insert st key (Except.ok c : Except E H)).2.clients key = some c := by
  have hres : (get_or_try_insert st key (Except.ok c : Except E H)).1 = Except.ok c ∧
      mapGet (get_or_try_insert st key (Except.ok c : Except E H)).2.clients key
        = some c := by
    by_cases hroom : st.order.length < CLIENT_CACHE_LIMIT
    · rw [get_insert_fresh (E := E) st key c hinv hfresh hroom]
      refine ⟨rfl, ?_⟩
      show mapGet (mapInsert st.clients key c) key = some c
      rw [mapGet_mapInsert, if_pos rfl]
    · have hfull : st.order.length = CLIENT_CACHE_LIMIT :=
        Nat.le_antisymm hinv.bounded (Nat.not_lt.mp hroom)
      cases horder : st.order with
      | nil =>
        exfalso
        rw [horder] at hfull
        simp [CLIENT_CACHE_LIMIT] at hfull
      | cons hd tl =>
        rw [get_insert_full (E := E) st key hd tl c hinv hfresh horder hfull]
        refine ⟨rfl, ?_⟩
        have hnot : key ∉ st.order := hinv.not_mem_of_fresh hfresh
        have hhd : hd ∈ st.order := by rw [horder]; exact List.mem_cons_self hd tl
        have hhdk : ¬ key = hd := fun hh => hnot (hh ▸ hhd)
        show mapGet (mapRemove (mapInsert st.clients key c) hd) key = some c
        rw [mapGet_mapRemove, if_neg hhdk, mapGet_mapInsert, if_pos rfl]
  exact ⟨get_or_try_insert_miss_error st key e hfresh, hinv.not_mem_of_fresh hfresh,
    hres.1, hres.2⟩

/-- Witness for claim C4: a failed build at the empty cache, retried with
success. -/
theorem build_failure_no_poison_witness :
    CacheInv (ClientCache.empty Unit) ∧
    mapGet (ClientCache.empty Unit).clients (ClientKey.mk "x" none 0) = none ∧
    (get_or_try_insert (ClientCache.empty Unit) (ClientKey.mk "x" none 0)
        (Except.error () : Except Unit Unit) =
      (Except.error (), ClientCache.empty Unit) ∧
      (ClientKey.mk "x" none 0) ∉ (ClientCache.empty Unit).order ∧
      (get_or_try_insert (ClientCache.empty Unit) (ClientKey.mk "x" none 0)
        (Except.ok () : Except Unit Unit)).1 = Except.ok () ∧
      mapGet (get_or_try_insert (ClientCache.empty Unit) (ClientKey.mk "x" none 0)
        (Except.ok () : Except Unit Unit)).2.clients (ClientKey.mk "x" none 0) = some ()) :=
  ⟨cacheInv_empty Unit, rfl,
    build_failure_no_poison (ClientCache.empty Unit) (ClientKey.mk "x" none 0) () ()
      (cacheInv_empty Unit) rfl⟩


/-- Claim C2: every access to the cache, hit or fresh insert, moves the
accessed key to the most-recently-used end of the recency queue, removing any
prior occurrence of that key first; consequently, after inserting keys A, B, C
in order and then touching A, the next capacity overflow evicts B while A, C
and the overflowing key D all remain cached. -/
theorem lru_touch_order :
    (∀ (H E : Type) (st : ClientCache H) (key : ClientKey) (c : H) (b : Except E H),
      CacheInv st →
      (mapGet st.clients key = some c ∨
        (mapGet st.clients key = none ∧ b = Except.ok c ∧
          st.order.length < CLIENT_CACHE_LIMIT)) →
      (get_or_try_insert st key b).2.order = retainNe st.order key ++ [key]) ∧
    (∀ (H : Type) (hv : H) (kA kB kC kD : ClientKey) (filler : List ClientKey),
      kA ≠ kB → kA ≠ kC → kA ≠ kD → kB ≠ kC → kB ≠ kD → kC ≠ kD →
      filler.Nodup → filler.length + 3 = CLIENT_CACHE_LIMIT →
      kA ∉ filler → kB ∉ filler → kC ∉ filler → kD ∉ filler →
      mapGet (lruScenario hv kA kB kC kD filler).clients kB = none ∧
      kB ∉ (lruScenario hv kA kB kC kD filler).order ∧
      (mapGet (lruScenario hv kA kB kC kD filler).clients kA).isSome ∧
      (mapGet (lruScenario hv kA kB kC kD filler).clients kC).isSome ∧
      (mapGet (lruScenario hv kA kB kC kD filler).clients kD).isSome) := by
  constructor
  · intro H E st key c b hinv hcase
    rcases hcase with hm | ⟨hfresh, hb, hroom⟩
    · rw [get_or_try_insert_hit st key c b hm,
        bump_key_hit st key hinv (hinv.mem_of_hit hm)]
    · subst hb
      rw [get_insert_fresh (E := E) st key c hinv hfresh hroom]
      show st.order ++ [key] = retainNe st.order key ++ [key]
      rw [retainNe_of_not_mem st.order key (hinv.not_mem_of_fresh hfresh)]
  · intro H hv kA kB kC kD filler hAB hAC hAD hBC hBD hCD hnd hlen hAf hBf hCf hDf
    exact lruScenario_evicts_B hv kA kB kC kD filler hAB hAC hAD hBC hBD hCD hnd hlen
      hAf hBf hCf hDf

/-- The concrete filler keys of the witness scenario: 1021 distinct keys. -/
def fillerKeys : List ClientKey := (List.range 1021).map natKey

theorem fillerKeys_nodup : fillerKeys.Nodup := (List.nodup_range _).map natKey_injective

theorem fillerKeys_length : fillerKeys.length + 3 = CLIENT_CACHE_LIMIT := by
  simp [fillerKeys, CLIENT_CACHE_LIMIT]

/-- Concrete scenario key A. -/
def keyA : ClientKey := ⟨"A", none, 0⟩

/-- Concrete scenario key B. -/
def keyB : ClientKey := ⟨"B", none, 0⟩

/-- Concrete scenario key C. -/
def keyC : ClientKey := ⟨"C", none, 0⟩

/-- Concrete scenario key D. -/
def keyD : ClientKey := ⟨"D", none, 0⟩

/-- Witness for claim C2: a fresh insert into the empty cache lands at the
most-recently-used end, and in the concrete full scenario B is the key that
gets evicted while A stays cached. -/
theorem lru_touch_order_witness :
    (CacheInv (ClientCache.empty Unit) ∧
      (get_or_try_insert (ClientCache.empty Unit) (ClientKey.mk "x" none 0)
          (Except.ok () : Except Unit Unit)).2.order =
        retainNe (ClientCache.empty Unit).order (ClientKey.mk "x" none 0) ++
          [ClientKey.mk "x" none 0]) ∧
    (keyA ≠ keyB ∧ fillerKeys.Nodup ∧ fillerKeys.length + 3 = CLIENT_CACHE_LIMIT ∧
      keyB ∉ fillerKeys ∧
      mapGet (lruScenario () keyA keyB keyC keyD fillerKeys).clients keyB = none ∧
      (mapGet (lruScenario () keyA keyB keyC keyD fillerKeys).clients keyA).isSome) := by
  constructor
  · refine ⟨cacheInv_empty Unit, ?_⟩
    exact lru_touch_order.1 Unit Unit (ClientCache.empty Unit) (ClientKey.mk "x" none 0) ()
      (Except.ok ()) (cacheInv_empty Unit)
      (Or.inr ⟨rfl, rfl, by simp [ClientCache.empty, CLIENT_CACHE_LIMIT]⟩)
  · obtain ⟨h1, h2, h3, h4, h5⟩ := lru_touch_order.2 Unit () keyA keyB keyC keyD fillerKeys
      (by decide) (by decide) (by decide) (by decide) (by decide) (by decide)
      fillerKeys_nodup fillerKeys_length
      (not_mem_natKeys "A" none 0 1021 (by decide))
      (not_mem_natKeys "B" none 0 1021 (by decide))
      (not_mem_natKeys "C" none 0 1021 (by decide))
      (not_mem_natKeys "D" none 0 1021 (by decide))
    exact ⟨by decide, fillerKeys_nodup, fillerKeys_length,
      not_mem_natKeys "B" none 0 1021 (by decide), h1, h3⟩


theorem get_or_try_insert_ok {H E : Type} (st : ClientCache H) (key : ClientKey) (c : H) :
    ∃ (r : H) (st2 : ClientCache H),
      get_or_try_insert st key (Except.ok c : Except E H) = (Except.ok r, st2) := by
  cases hm : mapGet st.clients key with
  | some r => exact ⟨r, bump_key st key, get_or_try_insert_hit st key r _ hm⟩
  | none =>
    exact ⟨c, bump_key ⟨mapInsert st.clients key c, st.order⟩ key,
      get_or_try_insert_miss_ok st key c hm⟩

/-- Counterexample for claim C3 as stated: for the u64 timeout 2^64 - 1 the
code buckets to 5000, while max(1, ceil(timeout / 5000)) times 5000 is the
far larger 18446744073709555000: the addition timeout + 5000 - 1 wraps around
in u64 arithmetic for the topmost 4999 timeout values. -/
theorem bucket_timeout_overflow_cex :
    bucket_timeout (U64MOD - 1) = 5000 ∧
    bucket_timeout_spec (U64MOD - 1) = 18446744073709555000 ∧
    bucket_timeout (U64MOD - 1) ≠ bucket_timeout_spec (U64MOD - 1) :=
  ⟨by decide, by decide, by decide⟩

/-- Claim C3 amended: whenever timeout + 5000 does not exceed 2^64 (every
timeout except the topmost 4999 u64 values) the derived bucket equals
max(1, ceil(timeout / 5000)) times 5000; for every u64 timeout whatsoever the
bucket is a positive multiple of 5000; timeouts 0, 1 and 5000 all bucket to
5000 and 5001 buckets to 10000; and key derivation is deterministic:
identical (emulation, proxy, timeout) inputs yield an identical ClientKey. -/
theorem bucket_timeout_spec_agreement :
    (∀ t : Nat, t + TIMEOUT_BUCKET_MS ≤ U64MOD →
      bucket_timeout t = bucket_timeout_spec t) ∧
    (∀ t : Nat, t < U64MOD →
      0 < bucket_timeout t ∧ bucket_timeout t % TIMEOUT_BUCKET_MS = 0) ∧
    (bucket_timeout 0 = 5000 ∧ bucket_timeout 1 = 5000 ∧
      bucket_timeout 5000 = 5000 ∧ bucket_timeout 5001 = 10000) ∧
    (∀ o1 o2 : RequestOptions, o1.emulation = o2.emulation → o1.proxy = o2.proxy →
      o1.timeout = o2.timeout → derive_key o1 = derive_key o2) := by
  have key : ∀ t : Nat, ∃ b : Nat, 1 ≤ b ∧ bucket_timeout t = b * TIMEOUT_BUCKET_MS := by
    intro t
    refine ⟨max (((t + TIMEOUT_BUCKET_MS) % U64MOD + (U64MOD - 1)) % U64MOD /
      TIMEOUT_BUCKET_MS) 1, le_max_right _ _, ?_⟩
    simp only [bucket_timeout]
    have hlt : max (((t + TIMEOUT_BUCKET_MS) % U64MOD + (U64MOD - 1)) % U64MOD /
        TIMEOUT_BUCKET_MS) 1 * TIMEOUT_BUCKET_MS < U64MOD := by
      rcases max_choice (((t + TIMEOUT_BUCKET_MS) % U64MOD + (U64MOD - 1)) % U64MOD /
        TIMEOUT_BUCKET_MS) 1 with h | h <;> rw [h] <;>
        simp only [TIMEOUT_BUCKET_MS, U64MOD] <;> omega
    exact Nat.mod_eq_of_lt hlt
  refine ⟨?_, ?_, ⟨by decide, by decide, by decide, by decide⟩, ?_⟩
  · intro t ht
    simp only [bucket_timeout, bucket_timeout_spec]
    have hb : ((t + TIMEOUT_BUCKET_MS) % U64MOD + (U64MOD - 1)) % U64MOD =
        t + TIMEOUT_BUCKET_MS - 1 := by
      simp only [TIMEOUT_BUCKET_MS, U64MOD] at ht ⊢
      omega
    rw [hb, Nat.max_comm]
    have hlt : max 1 ((t + TIMEOUT_BUCKET_MS - 1) / TIMEOUT_BUCKET_MS) *
        TIMEOUT_BUCKET_MS < U64MOD := by
      rcases max_choice 1 ((t + TIMEOUT_BUCKET_MS - 1) / TIMEOUT_BUCKET_MS) with h | h <;>
        rw [h] <;> simp only [TIMEOUT_BUCKET_MS, U64MOD] at ht ⊢ <;> omega
    rw [Nat.mod_eq_of_lt hlt]
  · intro t _
    obtain ⟨b, hb, he⟩ := key t
    rw [he]
    constructor
    · have : 0 < TIMEOUT_BUCKET_MS := by simp [TIMEOUT_BUCKET_MS]
      exact Nat.mul_pos hb this
    · exact Nat.mul_mod_left b TIMEOUT_BUCKET_MS
  · intro o1 o2 h1 h2 h3
    simp [derive_key, h1, h2, h3]

/-- Witness for claim C3 at small concrete timeouts. -/
theorem bucket_timeout_spec_agreement_witness :
    (3 + TIMEOUT_BUCKET_MS ≤ U64MOD ∧ bucket_timeout 3 = bucket_timeout_spec 3) ∧
    (7 < U64MOD ∧ 0 < bucket_timeout 7 ∧ bucket_timeout 7 % TIMEOUT_BUCKET_MS = 0) ∧
    bucket_timeout 5001 = 10000 :=
  ⟨⟨by decide, bucket_timeout_spec_agreement.1 3 (by decide)⟩,
    ⟨by decide, (bucket_timeout_spec_agreement.2.1 7 (by decide)).1,
      (bucket_timeout_spec_agreement.2.1 7 (by decide)).2⟩,
    bucket_timeout_spec_agreement.2.2.1.2.2.2⟩

/-- Counterexample for claim C9 as stated: an emulation profile that cannot be
named falls back to the label chrome_142 and therefore collides with a profile
that is named chrome_142: two RequestOptions differing in their emulation
profile derive the same ClientKey. -/
theorem derive_key_collision_cex :
    Emulation.mk none ≠ Emulation.mk (some "chrome_142") ∧
    derive_key (RequestOptions.mk "http://x" (Emulation.mk none) [] "GET"
        none none 1000) =
      derive_key (RequestOptions.mk "http://x" (Emulation.mk (some "chrome_142")) [] "GET"
        none none 1000) :=
  ⟨by decide, rfl⟩

/-- Claim C9 amended: key derivation is injective in the proxy and in the
emulation label: two RequestOptions that differ in proxy, or whose emulation
profiles carry distinct labels, always derive distinct ClientKeys.  Only
profiles whose labels coincide (including the documented chrome_142 fallback
for a profile that cannot be named) can collide. -/
theorem derive_key_injective_on_labels (o1 o2 : RequestOptions)
    (h : emulation_label o1.emulation ≠ emulation_label o2.emulation ∨
      o1.proxy ≠ o2.proxy) :
    derive_key o1 ≠ derive_key o2 := by
  intro he
  have h1 := congrArg ClientKey.emulation he
  have h2 := congrArg ClientKey.proxy he
  simp only [derive_key] at h1 h2
  rcases h with h | h
  · exact h h1
  · exact h h2

/-- Witness for claim C9: two options differing only in proxy get distinct
keys. -/
theorem derive_key_injective_on_labels_witness :
    ((RequestOptions.mk "u" (Emulation.mk (some "firefox_143")) [] "" none
        (some "http://p:1") 1).proxy ≠
      (RequestOptions.mk "u" (Emulation.mk (some "firefox_143")) [] "" none none 1).proxy) ∧
    derive_key (RequestOptions.mk "u" (Emulation.mk (some "firefox_143")) [] "" none
        (some "http://p:1") 1) ≠
      derive_key (RequestOptions.mk "u" (Emulation.mk (some "firefox_143")) [] "" none
        none 1) :=
  ⟨by decide, derive_key_injective_on_labels _ _ (Or.inr (by decide))⟩


/-- Bool test: do the characters of `hay` start with those of `pat`? -/
def startsWithL : List Char → List Char → Bool
  | _, [] => true
  | [], _ :: _ => false
  | a :: hs, b :: ps => a == b && startsWithL hs ps

/-- Bool test: do the characters of `pat` occur contiguously in `hay`? -/
def containsSubL : List Char → List Char → Bool
  | [], pat => startsWithL [] pat
  | c :: rest, pat => startsWithL (c :: rest) pat || containsSubL rest pat

/-- Substring containment, used to state that an error message contains (or
fails to contain) a method name. -/
def containsSub (s pat : String) : Bool := containsSubL s.data pat.data

theorem parse_method_eq_none (s : String)
    (h : s ∉ (["GET", "POST", "PUT", "DELETE", "PATCH", "HEAD"] : List String)) :
    parse_method s = none := by
  simp only [List.mem_cons, List.not_mem_nil, or_false] at h
  push_neg at h
  obtain ⟨h1, h2, h3, h4, h5, h6⟩ := h
  simp [parse_method, h1, h2, h3, h4, h5, h6]

/-- Claim C5 amended: provided the client handle resolves (the builder outcome
is ok), make_request with a non-empty method string whose uppercasing is not
one of GET, POST, PUT, DELETE, PATCH or HEAD fails with an
UnsupportedMethodError whose message names the UPPERCASED method string (so
for an uppercase input such as TRACE the message contains the given string
verbatim, while a lowercase input is reported uppercased). -/
theorem unsupported_method_error {H E : Type} (st : ClientCache H)
    (o : RequestOptions) (c : H)
    (sendFn : H → OutboundRequest → Except String RawResponse)
    (hne : o.method ≠ "")
    (hbad : toUpperStr o.method ∉
      (["GET", "POST", "PUT", "DELETE", "PATCH", "HEAD"] : List String)) :
    (make_request st o (Except.ok c : Except E H) sendFn).1 =
      Except.error (MakeRequestError.unsupportedMethod
        ("Unsupported HTTP method: " ++ toUpperStr o.method)) := by
  obtain ⟨r, st2, hres⟩ := get_or_try_insert_ok (E := E) st (derive_key o) c
  have hpm := parse_method_eq_none (toUpperStr o.method) hbad
  simp only [make_request, get_or_build_client, hres, if_neg hne, hpm]

/-- Options used by the method-error witness. -/
def traceOptions : RequestOptions :=
  ⟨"http://example", Emulation.mk (some "chrome_142"), [], "TRACE", none, none, 1000⟩

/-- Options used by the method-naming counterexample: lowercase trace. -/
def lowerTraceOptions : RequestOptions :=
  ⟨"http://example", Emulation.mk (some "chrome_142"), [], "trace", none, none, 1000⟩

/-- A network stub that always fails; never reached in these theorems. -/
def noSend : Unit → OutboundRequest → Except String RawResponse :=
  fun _ _ => Except.error "unreachable"

/-- Witness for claim C5: method TRACE fails with a message that contains
TRACE. -/
theorem unsupported_method_error_witness :
    traceOptions.method ≠ "" ∧
    toUpperStr traceOptions.method ∉
      (["GET", "POST", "PUT", "DELETE", "PATCH", "HEAD"] : List String) ∧
    (make_request (ClientCache.empty Unit) traceOptions (Except.ok () : Except Unit Unit)
        noSend).1 =
      Except.error (MakeRequestError.unsupportedMethod "Unsupported HTTP method: TRACE") ∧
    containsSub "Unsupported HTTP method: TRACE" "TRACE" = true := by
  refine ⟨by decide, by decide, ?_, by decide⟩
  have h := unsupported_method_error (E := Unit) (ClientCache.empty Unit) traceOptions ()
    noSend (by decide) (by decide)
  rw [h]
  rfl

/-- Counterexample for claim C5 as stated: with the method given as the
lowercase string trace, make_request does fail with an UnsupportedMethodError,
but the message names the uppercased method TRACE and does not contain the
given method string. -/
theorem unsupported_method_naming_cex :
    (make_request (ClientCache.empty Unit) lowerTraceOptions
        (Except.ok () : Except Unit Unit) noSend).1 =
      Except.error (MakeRequestError.unsupportedMethod "Unsupported HTTP method: TRACE") ∧
    containsSub "Unsupported HTTP method: TRACE" "trace" = false :=
  ⟨rfl, by decide⟩

/-- Claim C6: make_request with an empty method string behaves identically to
make_request with method GET when every other field is the same: the same
derived key and cache effect, the same outbound request (the equality holds
for every network behavior sendFn), and the same result. -/
theorem empty_method_equals_get {H E : Type} (st : ClientCache H) (o : RequestOptions)
    (builder : Except E H)
    (sendFn : H → OutboundRequest → Except String RawResponse) :
    make_request st { o with method := "" } builder sendFn =
      make_request st { o with method := "GET" } builder sendFn := rfl

/-- Claim C7: cookie extraction reads only the first set-cookie header
occurrence (later occurrences never contribute, whatever they are), parsing
its value by splitting on semicolons, trimming each segment and splitting each
segment on the first equals sign into an inserted name/value pair; in
particular the value a=1; b=2 yields exactly the mapping a to 1 and b to 2,
and with a second set-cookie header present only the first is read. -/
theorem cookie_extraction_first_header :
    (∀ (v : Option String) (rest : List (String × Option String)),
      extract_cookies (("set-cookie", v) :: rest) =
        match v with
        | some s => parse_cookie_str s
        | none => []) ∧
    extract_cookies [("set-cookie", some "a=1; b=2")] = [("a", "1"), ("b", "2")] ∧
    extract_cookies [("set-cookie", some "a=1"), ("set-cookie", some "b=2")] =
      [("a", "1")] := by
  refine ⟨?_, by decide, by decide⟩
  intro v rest
  cases v <;> rfl

end NodeWreq
